import Mathlib

/-!
Shallow embedding of the xraycheck concurrency-and-resource core.

Conventions used throughout:
* The Python modules `lib/signals.py`, `lib/port_pool.py` and
  `notworkers_sqlite/store.py` are translated definition by definition.
  Module-level mutable state (the registry list, the port pool list, the
  SQLite table) is made explicit: each operation takes the state and
  returns the new state together with its result.
* SQLite timestamps are fixed-width zero-padded ISO-8601 UTC strings whose
  lexicographic order coincides with chronological order (the store module
  states this in its own comment), so timestamps are modelled as integers
  and the string comparison `last_seen < cutoff` as integer `<`.
* `sqlite3` row ids (`id INTEGER PRIMARY KEY AUTOINCREMENT`) are modelled
  by allocating `max existing id + 1`; ids never appear in any observable
  result, they only identify rows inside `prune_to_max`.
* Python `int` is `Int`; row counts returned to the caller are `Nat`.
-/

/-! ### Process registry (`lib/signals.py`)

State: the module-level list `active_processes : list[tuple[Popen, int]]`.
A `subprocess.Popen` handle is opaque; it is modelled as a `Nat` tag. All
three operations run under `_active_lock`, so each is one atomic step on
the state. -/

/-- A registry state: the `active_processes` list of (handle, port) pairs. -/
abbrev Registry := List (Nat × Int)

/-- Embeds `register_process`: appends the pair to `active_processes`. -/
def register_process (st : Registry) (proc : Nat) (port : Int) : Registry :=
  st ++ [(proc, port)]

/-- Embeds `unregister_process`: `active_processes.remove((proc, port))`
removes the first occurrence; the `ValueError` raised when the pair is
absent is swallowed, leaving the state unchanged (which is exactly what
`List.erase` does on a missing element). -/
def unregister_process (st : Registry) (proc : Nat) (port : Int) : Registry :=
  st.erase (proc, port)

/-- Embeds `_snapshot_and_clear_active`: under the lock, copies the list,
clears it, and returns the copy: one atomic capture-and-empty step. -/
def snapshotAndClearActive (st : Registry) : Registry × Registry :=
  (st, [])

/-! ### Port pool (`lib/port_pool.py`)

State: the module-level list `_port_pool : list[int]`, initialised from
the configured `BASE_PORT` and `MAX_WORKERS` (supplied by `lib/config.py`,
outside the core) and mutated only by `take_port` / `return_port`, both
under `_port_lock`. -/

/-- Evaluates `list(range(start, start + n))` over the integers. -/
def intRange (start : Int) : Nat → List Int
  | 0 => []
  | n + 1 => start :: intRange (start + 1) n

/-- Evaluates Python `range(lo, hi)` as a list of integers. -/
def pyRange (lo hi : Int) : List Int :=
  intRange lo (hi - lo).toNat

/-- Embeds the module-level initialisation of `_port_pool`: if
`BASE_PORT + MAX_WORKERS - 1` exceeds 65535 the worker count is clamped to
`max 0 (65535 - BASE_PORT + 1)`, giving an empty pool when even the base
is beyond 65535; otherwise the pool is `range(BASE_PORT, BASE_PORT +
MAX_WORKERS)`. -/
def portPoolInit (basePort maxWorkers : Int) : List Int :=
  if basePort + maxWorkers - 1 > 65535 then
    if 65535 - basePort + 1 ≤ 0 then
      []
    else
      pyRange basePort (basePort + (65535 - basePort + 1))
  else
    pyRange basePort (basePort + maxWorkers)

/-- Embeds `take_port`: under the lock, returns `None` when the pool is
empty, else `pop()`s (and returns) the last element. -/
def take_port (pool : List Int) : Option Int × List Int :=
  match pool.getLast? with
  | none => (none, pool)
  | some p => (some p, pool.dropLast)

/-- Embeds `return_port`: under the lock, appends the port to the pool. -/
def return_port (pool : List Int) (port : Int) : List Int :=
  pool ++ [port]

/-- Iterates `take_port` the given number of times, collecting the results
and the final pool state. -/
def takeIter : Nat → List Int → List (Option Int) × List Int
  | 0, pool => ([], pool)
  | n + 1, pool =>
    match take_port pool with
    | (r, pool') =>
      match takeIter n pool' with
      | (rs, pool'') => (r :: rs, pool'')

/-! ### Partial-results sidecar (`lib/signals.py`, `save_partial_results`)

The function reads the module-level `available_keys` and
`output_path_global`; both are parameters here. Writing the file is
modelled by returning the `(path, content)` pair that would be written,
or `none` when the guard `if available_keys and output_path_global` fails
and nothing is written. -/

/-- Evaluates Python `str.replace` for a non-empty pattern: scans left to
right, replacing each non-overlapping occurrence of `pat` by `rep`. The
fuel argument starts at the length of the subject string, which is enough
because every step consumes at least one character. -/
def pyReplaceAux : Nat → List Char → List Char → List Char → List Char
  | 0, s, _, _ => s
  | _ + 1, [], _, _ => []
  | n + 1, c :: rest, pat, rep =>
    if pat.isPrefixOf (c :: rest) then
      rep ++ pyReplaceAux n ((c :: rest).drop pat.length) pat rep
    else
      c :: pyReplaceAux n rest pat rep

/-- Evaluates Python `s.replace(pat, rep)` for a non-empty `pat`. -/
def pyReplace (s pat rep : String) : String :=
  ⟨pyReplaceAux s.data.length s.data pat.data rep.data⟩

/-- Embeds the path derivation of `save_partial_results`:
`output_path_global.replace('.txt', '_partial.txt')`. -/
def partialSidecarPath (output_path : String) : String :=
  pyReplace output_path ".txt" "_partial.txt"

/-- Embeds `save_partial_results`: when both `available_keys` and
`output_path_global` are non-empty, writes `'\n'.join(available_keys)` to
the derived sidecar path; otherwise writes nothing. -/
def savePartialResults (available_keys : List String) (output_path : String) :
    Option (String × String) :=
  if available_keys.isEmpty || output_path.isEmpty then
    none
  else
    some (partialSidecarPath output_path, String.intercalate "\n" available_keys)

/-! ### Blacklist store (`notworkers_sqlite/store.py`)

State: the rows of the `notworkers` table, in rowid order (inserts
append). `key` carries a `UNIQUE` constraint, `id` is the autoincrement
primary key, `source` is nullable. Timestamps are integers (see the
header). Each operation is one committed transaction. -/

/-- A row of the `notworkers` table. -/
structure Row where
  id : Nat
  key : String
  raw : String
  first_seen : Int
  last_seen : Int
  fail_count : Int
  source : Option String
deriving DecidableEq

/-- The `notworkers` table: its rows in rowid order. -/
abbrev Store := List Row

/-- Evaluates `SELECT ... FROM notworkers WHERE key = ? LIMIT 1`. -/
def findRow (st : Store) (key : String) : Option Row :=
  st.find? (fun r => r.key = key)

/-- Allocates the next autoincrement row id: one more than the largest id
in use (always fresh, which is all the development observes about ids). -/
def nextId (st : Store) : Nat :=
  (st.map (fun r => r.id)).foldr max 0 + 1

/-- Evaluates the `DO UPDATE SET` clause of the upsert on the conflicting
row: `raw = excluded.raw`, `last_seen = excluded.last_seen`,
`fail_count = notworkers.fail_count + 1`,
`source = COALESCE(excluded.source, notworkers.source)`. -/
def updatedRow (raw : String) (source : Option String) (seen_at : Int) (r : Row) : Row :=
  { r with
    raw := raw
    last_seen := seen_at
    fail_count := r.fail_count + 1
    source := match source with | some s => some s | none => r.source }

/-- Applies the `DO UPDATE` clause to the row carrying the conflicting
key, leaving every other row unchanged. -/
def applyUpdate (key raw : String) (source : Option String) (seen_at : Int)
    (r : Row) : Row :=
  if r.key = key then updatedRow raw source seen_at r else r

/-- Embeds `upsert_notworker`: a no-op for an empty key; otherwise an
`INSERT ... ON CONFLICT(key) DO UPDATE` — when the key is absent a fresh
row `(key, raw, seen_at, seen_at, 1, source)` is inserted, and when it is
present the conflicting row is rewritten by `updatedRow`. `seen_at` is the
timestamp the Python wrapper resolved (the caller's value, or `utcnow()`
when the caller passed `None`). -/
def upsert_notworker (st : Store) (key raw : String) (source : Option String)
    (seen_at : Int) : Store :=
  if key = "" then st
  else
    match findRow st key with
    | some _ => st.map (applyUpdate key raw source seen_at)
    | none =>
      st ++ [{ id := nextId st, key := key, raw := raw, first_seen := seen_at,
               last_seen := seen_at, fail_count := 1, source := source }]

/-- Embeds `is_notworker`: `False` for an empty key, otherwise whether a
row with that key exists. -/
def is_notworker (st : Store) (key : String) : Bool :=
  if key = "" then false else (findRow st key).isSome

/-- Embeds `expire_old`: a no-op returning 0 for a non-positive
`max_age_days`; otherwise `DELETE FROM notworkers WHERE last_seen < ?`
with the cutoff `utcnow() - timedelta(days=max_age_days)`, returning the
deleted-row count. `now` stands for `utcnow()`. -/
def expire_old (st : Store) (max_age_days : Int) (now : Int) : Nat × Store :=
  if max_age_days ≤ 0 then
    (0, st)
  else
    (st.countP (fun r => decide (r.last_seen < now - max_age_days)),
     st.filter (fun r => decide (¬ r.last_seen < now - max_age_days)))

/-- Orders rows as `ORDER BY last_seen ASC` does. -/
def byLastSeen (a b : Row) : Prop :=
  a.last_seen ≤ b.last_seen

instance : DecidableRel byLastSeen :=
  fun a b => inferInstanceAs (Decidable (a.last_seen ≤ b.last_seen))

instance : IsTrans Row byLastSeen :=
  ⟨fun _ _ _ h1 h2 => le_trans h1 h2⟩

instance : IsTotal Row byLastSeen :=
  ⟨fun a b => le_total a.last_seen b.last_seen⟩

/-- Orders rows as `ORDER BY key` does. -/
def byKey (a b : Row) : Prop :=
  a.key ≤ b.key

instance : DecidableRel byKey :=
  fun a b => inferInstanceAs (Decidable (a.key ≤ b.key))

instance : IsTrans Row byKey :=
  ⟨fun _ _ _ h1 h2 => le_trans h1 h2⟩

instance : IsTotal Row byKey :=
  ⟨fun a b => le_total a.key b.key⟩

/-- Embeds `prune_to_max`: a no-op returning 0 for non-positive `max_rows`
or when the row count does not exceed it; otherwise deletes the rows whose
ids are selected by `SELECT id FROM notworkers ORDER BY last_seen ASC
LIMIT (total - max_rows)` and returns the deleted-row count. `ORDER BY
last_seen` on ties follows the `idx_notworkers_last_seen` index scan,
i.e. rowid order, which the stable insertion sort reproduces. -/
def prune_to_max (st : Store) (max_rows : Int) : Nat × Store :=
  if max_rows ≤ 0 then
    (0, st)
  else if (st.length : Int) ≤ max_rows then
    (0, st)
  else
    match ((List.insertionSort byLastSeen st).take
        ((st.length : Int) - max_rows).toNat).map (fun r => r.id) with
    | doomed =>
      (st.countP (fun r => decide (r.id ∈ doomed)),
       st.filter (fun r => decide (r.id ∉ doomed)))

/-- Embeds one iteration of the `migrate_from_flat` loop body and the loop
itself: for each `(norm, full)` item of the parsed mapping
`normalized_to_full`, checks `SELECT 1 ... WHERE key = norm` before
upserting with the given source, counting the pair as updated when the
key pre-existed and as inserted otherwise. The flat-file parsing
(`lib.parsing.load_notworkers_with_lines`, outside the core) supplies the
mapping; `t` stands for the `utcnow()` the upserts resolve. Returns
`(inserted, updated, final store)`. -/
def migrate_pairs (st : Store) (pairs : List (String × String)) (src : String)
    (t : Int) : Nat × Nat × Store :=
  match pairs with
  | [] => (0, 0, st)
  | (norm, full) :: rest =>
    match findRow st norm with
    | some _ =>
      match migrate_pairs (upsert_notworker st norm full (some src) t) rest src t with
      | (ins, upd, stF) => (ins, upd + 1, stF)
    | none =>
      match migrate_pairs (upsert_notworker st norm full (some src) t) rest src t with
      | (ins, upd, stF) => (ins + 1, upd, stF)

/-- Embeds the per-row line written by `export_to_flat`: the stored `raw`,
with a newline appended when it does not already end in one. -/
def lineOf (r : Row) : String :=
  if r.raw.endsWith "\n" then r.raw else r.raw ++ "\n"

/-- Embeds `export_to_flat`: `SELECT raw FROM notworkers ORDER BY key`,
writing one line per row and returning the count written. The store is
only read. Returns `(count, written lines in order)`. -/
def export_to_flat (st : Store) : Nat × List String :=
  match List.insertionSort byKey st with
  | rows => (rows.length, rows.map lineOf)

/-- States the spec invariant of the store: keys are unique, every row has
`first_seen ≤ last_seen`, and every row has `fail_count ≥ 1`. -/
def StoreInv (st : Store) : Prop :=
  (st.map (fun r => r.key)).Nodup ∧
  ∀ r ∈ st, r.first_seen ≤ r.last_seen ∧ 1 ≤ r.fail_count

/-- Describes one committed mutating operation on the store, as issued by
the program: upserts (directly or inside a migration) always carry the
current time, which is at least every `last_seen` already recorded (those
were written at earlier instants of the same monotone clock). -/
inductive Step : Store → Store → Prop
  | upsert (st : Store) (key raw : String) (source : Option String) (t : Int)
      (hclock : ∀ r ∈ st, r.last_seen ≤ t) :
      Step st (upsert_notworker st key raw source t)
  | expire (st : Store) (age now : Int) :
      Step st (expire_old st age now).2
  | prune (st : Store) (m : Int) :
      Step st (prune_to_max st m).2
  | migrate (st : Store) (pairs : List (String × String)) (src : String) (t : Int)
      (hclock : ∀ r ∈ st, r.last_seen ≤ t) :
      Step st (migrate_pairs st pairs src t).2.2

/-- Describes the store states reachable from the empty table created by
`init_db` through committed mutating operations. -/
inductive Reach : Store → Prop
  | empty : Reach []
  | step {st st' : Store} : Reach st → Step st st' → Reach st'

/-! ## Theorems -/

/-- C1: drain atomically captures and empties the registry in one step:
it returns exactly the pairs currently registered and not yet
unregistered (every pair with its exact multiplicity) and leaves the
registry empty afterwards; unregistering an absent pair (in particular
any pair after a drain has captured it) is a no-op that leaves the
registry unchanged, while unregistering a present pair removes exactly
one occurrence — so each pair is cleaned up exactly once. -/
theorem registry_drain_exactly_once (st : Registry) (proc : Nat) (port : Int) :
    snapshotAndClearActive st = (st, []) ∧
    (∀ x : Nat × Int, (snapshotAndClearActive st).1.count x = st.count x) ∧
    ((proc, port) ∉ st → unregister_process st proc port = st) ∧
    unregister_process (snapshotAndClearActive st).2 proc port =
      (snapshotAndClearActive st).2 ∧
    ((proc, port) ∈ st →
      (unregister_process st proc port).count (proc, port) = st.count (proc, port) - 1 ∧
      (unregister_process st proc port).length = st.length - 1) :=
  ⟨rfl, fun _ => rfl, fun h => List.erase_of_not_mem h, rfl,
   fun h => ⟨List.count_erase_self _ _, List.length_erase_of_mem h⟩⟩

/-- Witness for C1 at a concrete registry: unregistering a pair that was
never registered leaves the registry unchanged, and unregistering the
one registered pair empties it. -/
theorem registry_drain_exactly_once_witness :
    unregister_process [(1, 100)] 2 200 = [(1, 100)] ∧
    (unregister_process [(7, 300)] 7 300).length = 0 :=
  ⟨(registry_drain_exactly_once [(1, 100)] 2 200).2.2.1 (by decide),
   by
    have h := (registry_drain_exactly_once [(7, 300)] 7 300).2.2.2.2 (by decide)
    simpa using h.2⟩

/-- Characterises membership in `intRange`. -/
theorem mem_intRange {p start : Int} {n : Nat} :
    p ∈ intRange start n ↔ start ≤ p ∧ p < start + n := by
  induction n generalizing start with
  | zero => simp [intRange]
  | succ n ih =>
    simp only [intRange, List.mem_cons, ih]
    constructor
    · rintro (rfl | ⟨h1, h2⟩) <;> constructor <;> omega
    · rintro ⟨h1, h2⟩
      by_cases hp : p = start
      · exact Or.inl hp
      · right
        constructor <;> omega

/-- States that `intRange` never repeats a port. -/
theorem nodup_intRange {start : Int} {n : Nat} : (intRange start n).Nodup := by
  induction n generalizing start with
  | zero => simp [intRange]
  | succ n ih =>
    simp only [intRange]
    refine List.nodup_cons.mpr ⟨fun h => ?_, ih⟩
    rw [mem_intRange] at h
    omega

/-- Characterises membership in a Python `range` over the integers. -/
theorem mem_pyRange {p lo hi : Int} : p ∈ pyRange lo hi ↔ lo ≤ p ∧ p < hi := by
  rw [pyRange, mem_intRange]
  omega

/-- C4: the pool starts pre-populated with exactly the ports of
`[base, base + capacity - 1]` clamped so no port exceeds 65535 (each
exactly once): the effective capacity shrinks to fit when the configured
range overflows, the pool is empty when even the base is out of range,
and in particular base 65530 with capacity 10 yields exactly the six
ports 65530–65535. -/
theorem port_pool_init_clamped (basePort maxWorkers p : Int) :
    (portPoolInit basePort maxWorkers).Nodup ∧
    (p ∈ portPoolInit basePort maxWorkers ↔
      basePort ≤ p ∧ p ≤ basePort + maxWorkers - 1 ∧ p ≤ 65535) ∧
    portPoolInit 65530 10 = [65530, 65531, 65532, 65533, 65534, 65535] := by
  refine ⟨?_, ?_, by decide⟩
  · rw [portPoolInit]
    split
    · split
      · exact List.nodup_nil
      · rw [pyRange]
        exact nodup_intRange
    · rw [pyRange]
      exact nodup_intRange
  · rw [portPoolInit]
    split
    next hover =>
      split
      next hbase =>
        simp only [List.not_mem_nil, false_iff]
        omega
      next hbase =>
        rw [mem_pyRange]
        omega
    next hover =>
      rw [mem_pyRange]
      omega

/-- Evaluates one `take_port` on a pool whose last element is known. -/
theorem take_port_concat (xs : List Int) (x : Int) :
    take_port (xs ++ [x]) = (some x, xs) := by
  simp [take_port, List.getLast?_concat, List.dropLast_concat]

/-- Evaluates taking as many ports as the pool holds: every take
succeeds (the pool is popped from the back) and the pool ends empty. -/
theorem takeIter_length (pool : List Int) :
    takeIter pool.length pool = (pool.reverse.map some, []) := by
  induction pool using List.reverseRecOn with
  | nil => simp [takeIter]
  | append_singleton xs x ih =>
    have hlen : (xs ++ [x]).length = xs.length + 1 := by simp
    rw [hlen]
    simp [takeIter, take_port_concat, ih]

/-- C8: starting from a pool of capacity N (its initial length), N takes
all succeed and exhaust the pool; the (N+1)-th take signals "none
available" by returning `none` (and no exception) with the pool still
empty; a single `return_port` then makes exactly one port available
again: the next take succeeds with that port and the one after is `none`
again. -/
theorem pool_exhaustion_and_giveback (pool : List Int) (p : Int) :
    (takeIter pool.length pool).2 = [] ∧
    (takeIter pool.length pool).1.all (fun r => r.isSome) = true ∧
    (takeIter pool.length pool).1.length = pool.length ∧
    take_port (takeIter pool.length pool).2 = (none, []) ∧
    take_port (return_port (takeIter pool.length pool).2 p) = (some p, []) ∧
    take_port (take_port (return_port (takeIter pool.length pool).2 p)).2 =
      (none, []) := by
  rw [takeIter_length]
  refine ⟨rfl, ?_, by simp, rfl, ?_, ?_⟩
  · simp [List.all_eq_true]
  · exact take_port_concat [] p
  · rw [show return_port [] p = [] ++ [p] from rfl, take_port_concat]
    rfl

/-- C10: the existence check rejects the empty key up front: for every
store state it returns `False` (without consulting the rows), and the
corresponding upsert of an empty key is likewise a no-op, so an empty key
can never be reported as blacklisted. -/
theorem contains_empty_key_false (st : Store) (raw : String) (source : Option String)
    (t : Int) :
    is_notworker st "" = false ∧ upsert_notworker st "" raw source t = st := by
  constructor
  · simp [is_notworker]
  · simp [upsert_notworker]

/-- C3 counterexample: for the intended output path "results.txt" the
sidecar path actually produced is "results_partial.txt" — the marker is
an underscore "_partial", not the "-partial" the claim states (which
would give "results-partial.txt"). -/
theorem sidecar_marker_counterexample :
    savePartialResults ["k1"] "results.txt" = some ("results_partial.txt", "k1") ∧
    "results_partial.txt" ≠ "results-partial.txt" := by
  constructor
  · decide
  · decide

/-- C3 (amended): when the accumulated descriptor set and the intended
output path are both non-empty, the sidecar path is derived from the
output path by replacing each occurrence of ".txt" with "_partial.txt" —
an "_partial" (underscore, not "-partial") marker before the ".txt"
extension, a path without ".txt" staying unchanged — and the content is
the confirmed-good descriptors joined by newlines, one per line;
otherwise nothing is written. -/
theorem sidecar_amended (available_keys : List String) (output_path : String) :
    savePartialResults available_keys output_path =
      (if available_keys.isEmpty || output_path.isEmpty then none
       else some (pyReplace output_path ".txt" "_partial.txt",
                  String.intercalate "\n" available_keys)) ∧
    partialSidecarPath "results.txt" = "results_partial.txt" ∧
    partialSidecarPath "dir/out.txt" = "dir/out_partial.txt" ∧
    partialSidecarPath "no_extension" = "no_extension" ∧
    savePartialResults ["a", "b", "c"] "r.txt" = some ("r_partial.txt", "a\nb\nc") ∧
    savePartialResults [] "r.txt" = none := by
  refine ⟨rfl, by decide, by decide, by decide, by decide, by decide⟩

/-- C7: for a positive `max_age`, `expire` deletes exactly the entries
whose `last_seen` is strictly older than `now - max_age` (one equal to
the cutoff is retained) and returns the count deleted; for a non-positive
`max_age` it is a no-op returning 0. Concretely, with a 30-day maximum
age an entry last seen 31 days ago is removed while one last seen 29 days
ago is retained. -/
theorem expire_strict_cutoff (st : Store) (max_age_days now : Int) :
    (0 < max_age_days →
      (∀ r : Row, r ∈ (expire_old st max_age_days now).2 ↔
          r ∈ st ∧ now - max_age_days ≤ r.last_seen) ∧
      (expire_old st max_age_days now).1 =
        st.countP (fun r => decide (r.last_seen < now - max_age_days))) ∧
    (max_age_days ≤ 0 → expire_old st max_age_days now = (0, st)) ∧
    expire_old [⟨1, "k31", "r31", -31, -31, 1, none⟩,
                ⟨2, "k29", "r29", -29, -29, 1, none⟩] 30 0 =
      (1, [⟨2, "k29", "r29", -29, -29, 1, none⟩]) := by
  refine ⟨fun hpos => ?_, fun hle => ?_, by decide⟩
  · rw [expire_old, if_neg (by omega)]
    refine ⟨fun r => ?_, rfl⟩
    simp only [List.mem_filter, decide_eq_true_eq]
    constructor
    · rintro ⟨h1, h2⟩
      exact ⟨h1, by omega⟩
    · rintro ⟨h1, h2⟩
      exact ⟨h1, by omega⟩
  · rw [expire_old, if_pos hle]

/-- Witness for C7: applies the theorem at concrete inputs, discharging
both the positive-age and the non-positive-age hypotheses. -/
theorem expire_strict_cutoff_witness :
    expire_old [] (-3) 5 = (0, ([] : Store)) ∧
    (expire_old [⟨1, "a", "r", -31, -31, 1, none⟩] 30 0).1 =
      List.countP (fun r : Row => decide (r.last_seen < 0 - 30))
        [⟨1, "a", "r", -31, -31, 1, none⟩] :=
  ⟨(expire_strict_cutoff [] (-3) 5).2.1 (by decide),
   ((expire_strict_cutoff [⟨1, "a", "r", -31, -31, 1, none⟩] 30 0).1 (by decide)).2⟩

/-- Extracts membership and the key equation from a successful lookup. -/
theorem findRow_mem {st : Store} {k : String} {r : Row} (h : findRow st k = some r) :
    r ∈ st ∧ r.key = k := by
  simp only [findRow] at h
  refine ⟨List.mem_of_find?_eq_some h, ?_⟩
  simpa using List.find?_some h

/-- Characterises a failed lookup. -/
theorem findRow_eq_none {st : Store} {k : String} :
    findRow st k = none ↔ ∀ r ∈ st, r.key ≠ k := by
  simp only [findRow, List.find?_eq_none, decide_eq_true_eq]

/-- States that the `DO UPDATE` clause never changes a row's key. -/
theorem applyUpdate_key (k raw : String) (src : Option String) (t : Int) (r : Row) :
    (applyUpdate k raw src t r).key = r.key := by
  by_cases h : r.key = k <;> simp [applyUpdate, updatedRow, h]

/-- Pushes a lookup through the `DO UPDATE` pass over the table. -/
theorem findRow_map_update (st : Store) (k raw : String) (src : Option String)
    (t : Int) (k' : String) :
    findRow (st.map (applyUpdate k raw src t)) k' =
      (findRow st k').map (applyUpdate k raw src t) := by
  simp only [findRow, List.find?_map]
  have hp : ((fun r : Row => decide (r.key = k')) ∘ applyUpdate k raw src t) =
      fun r : Row => decide (r.key = k') := by
    funext rr
    simp [Function.comp, applyUpdate_key]
  rw [hp]

/-- Evaluates the upsert on a present key at that key: the stored row is
rewritten by the `DO UPDATE` clause. -/
theorem findRow_upsert_self {st : Store} {k : String} (raw : String) (src : Option String)
    (t : Int) {r : Row} (hk : k ≠ "") (hr : findRow st k = some r) :
    findRow (upsert_notworker st k raw src t) k = some (updatedRow raw src t r) := by
  have hkey : r.key = k := (findRow_mem hr).2
  simp only [upsert_notworker, if_neg hk, hr]
  rw [findRow_map_update, hr]
  simp [applyUpdate, hkey]

/-- Evaluates the upsert at any other key: untouched. -/
theorem findRow_upsert_other {st : Store} {k : String} (raw : String) (src : Option String)
    (t : Int) {k' : String} (hne : k' ≠ k) :
    findRow (upsert_notworker st k raw src t) k' = findRow st k' := by
  by_cases hk : k = ""
  · simp [upsert_notworker, hk]
  · simp only [upsert_notworker, if_neg hk]
    cases hfind : findRow st k with
    | some r0 =>
      rw [findRow_map_update]
      cases hfind' : findRow st k' with
      | none => rfl
      | some r' =>
        have hk' : r'.key = k' := (findRow_mem hfind').2
        simp [applyUpdate, hk', hne]
    | none =>
      simp only [findRow, List.find?_append]
      have hnew : List.find? (fun rr : Row => decide (rr.key = k'))
          [{ id := nextId st, key := k, raw := raw, first_seen := t,
             last_seen := t, fail_count := 1, source := src }] = none := by
        simp [List.find?, Ne.symm hne]
      rw [hnew]
      cases List.find? (fun rr : Row => decide (rr.key = k')) st <;> rfl

/-- Evaluates the upsert on an absent key: the fresh row is appended. -/
theorem upsert_absent_eq {st : Store} {k : String} (raw : String) (src : Option String)
    (t : Int) (hk : k ≠ "") (h : findRow st k = none) :
    upsert_notworker st k raw src t =
      st ++ [{ id := nextId st, key := k, raw := raw, first_seen := t,
               last_seen := t, fail_count := 1, source := src }] := by
  simp only [upsert_notworker, if_neg hk, h]

/-- States that the upsert on a present key does not change the row count. -/
theorem upsert_present_length {st : Store} {k : String} (raw : String) (src : Option String)
    (t : Int) {r : Row} (hk : k ≠ "") (h : findRow st k = some r) :
    (upsert_notworker st k raw src t).length = st.length := by
  simp only [upsert_notworker, if_neg hk, h, List.length_map]

/-- C2: the upsert fails silently on an empty key; on an absent key it
inserts a fresh entry with `fail_count = 1` and
`first_seen = last_seen = observed_at`; on a present key it replaces
`raw`, sets `last_seen = observed_at`, increments `fail_count` by exactly
one, keeps `first_seen` (the row update touches no other field), and
overwrites `source` only when a new value is supplied; rows under other
keys are untouched. In particular upserting "k1" three times with raws
"a", "b", "c" leaves one entry with `raw = "c"` and `fail_count = 3`,
`first_seen` from the first call and `last_seen` from the third. -/
theorem upsert_contract (st : Store) (key raw : String) (src : Option String) (t : Int) :
    upsert_notworker st "" raw src t = st ∧
    (key ≠ "" → findRow st key = none →
      upsert_notworker st key raw src t =
        st ++ [{ id := nextId st, key := key, raw := raw, first_seen := t,
                 last_seen := t, fail_count := 1, source := src }]) ∧
    (∀ r : Row, key ≠ "" → findRow st key = some r →
      findRow (upsert_notworker st key raw src t) key =
        some { r with
                raw := raw
                last_seen := t
                fail_count := r.fail_count + 1
                source := match src with | some s => some s | none => r.source } ∧
      (upsert_notworker st key raw src t).length = st.length) ∧
    (∀ key', key' ≠ key →
      findRow (upsert_notworker st key raw src t) key' = findRow st key') ∧
    upsert_notworker (upsert_notworker (upsert_notworker [] "k1" "a" none 1)
        "k1" "b" none 2) "k1" "c" none 3 =
      [{ id := 1, key := "k1", raw := "c", first_seen := 1, last_seen := 3,
         fail_count := 3, source := none }] :=
  ⟨by simp [upsert_notworker],
   fun hk h => upsert_absent_eq raw src t hk h,
   fun r hk h => ⟨findRow_upsert_self raw src t hk h, upsert_present_length raw src t hk h⟩,
   fun key' hne => findRow_upsert_other raw src t hne,
   by decide⟩

/-- Witness for C2: a fresh insert into the empty store and an update of
that entry, with every hypothesis discharged concretely. -/
theorem upsert_contract_witness :
    upsert_notworker [] "k" "r" (some "cli") 5 =
      [{ id := 1, key := "k", raw := "r", first_seen := 5, last_seen := 5,
         fail_count := 1, source := some "cli" }] ∧
    findRow (upsert_notworker
        [{ id := 1, key := "k", raw := "r", first_seen := 5, last_seen := 5,
           fail_count := 1, source := some "cli" }] "k" "r2" none 9) "k" =
      some { id := 1, key := "k", raw := "r2", first_seen := 5, last_seen := 9,
             fail_count := 2, source := some "cli" } :=
  ⟨(upsert_contract [] "k" "r" (some "cli") 5).2.1 (by decide) (by decide),
   ((upsert_contract
       [{ id := 1, key := "k", raw := "r", first_seen := 5, last_seen := 5,
          fail_count := 1, source := some "cli" }] "k" "r2" none 9).2.2.1
     { id := 1, key := "k", raw := "r", first_seen := 5, last_seen := 5,
       fail_count := 1, source := some "cli" } (by decide) (by decide)).1⟩

/-- States that the `DO UPDATE` pass leaves the key column unchanged. -/
theorem keys_map_update (st : Store) (k raw : String) (src : Option String) (t : Int) :
    (st.map (applyUpdate k raw src t)).map (fun r => r.key) =
      st.map (fun r => r.key) := by
  rw [List.map_map]
  exact List.map_congr_left (fun a _ => by simp [Function.comp, applyUpdate_key])

/-- States that the upsert preserves uniqueness of the key column. -/
theorem upsert_keys_nodup {st : Store} {k raw : String} {src : Option String} {t : Int}
    (h : (st.map (fun r => r.key)).Nodup) :
    ((upsert_notworker st k raw src t).map (fun r => r.key)).Nodup := by
  by_cases hk : k = ""
  · simpa [upsert_notworker, hk] using h
  · cases hfind : findRow st k with
    | some r0 =>
      simp only [upsert_notworker, if_neg hk, hfind]
      rw [keys_map_update]
      exact h
    | none =>
      simp only [upsert_notworker, if_neg hk, hfind]
      rw [List.map_append, List.nodup_append]
      refine ⟨h, by simp, ?_⟩
      rw [findRow_eq_none] at hfind
      intro a ha hb
      simp only [List.map_cons, List.map_nil, List.mem_singleton] at hb
      rcases List.mem_map.mp ha with ⟨r, hrmem, rfl⟩
      exact hfind r hrmem hb

/-- States that the upsert keeps every `last_seen` at or below the
(current) upsert time. -/
theorem upsert_clock {st : Store} {k raw : String} {src : Option String} {t : Int}
    (hclock : ∀ r ∈ st, r.last_seen ≤ t) :
    ∀ r' ∈ upsert_notworker st k raw src t, r'.last_seen ≤ t := by
  intro r' hr'
  by_cases hk : k = ""
  · exact hclock r' (by simpa [upsert_notworker, hk] using hr')
  · cases hfind : findRow st k with
    | some r0 =>
      simp only [upsert_notworker, if_neg hk, hfind] at hr'
      rcases List.mem_map.mp hr' with ⟨r, hrmem, rfl⟩
      by_cases hcase : r.key = k
      · simp [applyUpdate, updatedRow, hcase]
      · simpa [applyUpdate, hcase] using hclock r hrmem
    | none =>
      simp only [upsert_notworker, if_neg hk, hfind] at hr'
      rcases List.mem_append.mp hr' with hmem | hmem
      · exact hclock r' hmem
      · simp only [List.mem_singleton] at hmem
        subst hmem
        exact le_refl t

/-- States that the upsert preserves the store invariant whenever its
timestamp is current (at or above every recorded `last_seen`). -/
theorem upsert_inv {st : Store} {k raw : String} {src : Option String} {t : Int}
    (hinv : StoreInv st) (hclock : ∀ r ∈ st, r.last_seen ≤ t) :
    StoreInv (upsert_notworker st k raw src t) := by
  refine ⟨upsert_keys_nodup hinv.1, ?_⟩
  intro r' hr'
  by_cases hk : k = ""
  · exact hinv.2 r' (by simpa [upsert_notworker, hk] using hr')
  · cases hfind : findRow st k with
    | some r0 =>
      simp only [upsert_notworker, if_neg hk, hfind] at hr'
      rcases List.mem_map.mp hr' with ⟨r, hrmem, rfl⟩
      by_cases hcase : r.key = k
      · have h1 := (hinv.2 r hrmem).1
        have h2 := (hinv.2 r hrmem).2
        have h3 := hclock r hrmem
        constructor
        · simp only [applyUpdate, updatedRow, if_pos hcase]
          omega
        · simp only [applyUpdate, updatedRow, if_pos hcase]
          omega
      · simpa [applyUpdate, hcase] using hinv.2 r hrmem
    | none =>
      simp only [upsert_notworker, if_neg hk, hfind] at hr'
      rcases List.mem_append.mp hr' with hmem | hmem
      · exact hinv.2 r' hmem
      · simp only [List.mem_singleton] at hmem
        subst hmem
        exact ⟨le_refl t, by norm_num⟩

/-- States that any row-deleting pass (a filter) preserves the invariant. -/
theorem filter_inv {st : Store} (q : Row → Bool) (hinv : StoreInv st) :
    StoreInv (st.filter q) :=
  ⟨List.Nodup.sublist (List.Sublist.map (fun r => r.key) (List.filter_sublist st)) hinv.1,
   fun r hr => hinv.2 r (List.mem_filter.mp hr).1⟩

/-- Reduces the state left by `expire_old` to the two shapes it can take:
unchanged, or a filter of the original rows. -/
theorem expire_snd_cases (st : Store) (age now : Int) :
    (expire_old st age now).2 = st ∨
      ∃ q : Row → Bool, (expire_old st age now).2 = st.filter q := by
  unfold expire_old
  split
  · exact Or.inl rfl
  · exact Or.inr ⟨_, rfl⟩

/-- Reduces the state left by `prune_to_max` to the two shapes it can
take: unchanged, or a filter of the original rows. -/
theorem prune_snd_cases (st : Store) (m : Int) :
    (prune_to_max st m).2 = st ∨
      ∃ q : Row → Bool, (prune_to_max st m).2 = st.filter q := by
  unfold prune_to_max
  split
  · exact Or.inl rfl
  · split
    · exact Or.inl rfl
    · exact Or.inr ⟨_, rfl⟩

/-- Reduces the state left by a migration step to iterated upserts. -/
theorem migrate_pairs_cons_store (st : Store) (norm full : String)
    (rest : List (String × String)) (src : String) (t : Int) :
    (migrate_pairs st ((norm, full) :: rest) src t).2.2 =
      (migrate_pairs (upsert_notworker st norm full (some src) t) rest src t).2.2 := by
  simp only [migrate_pairs]
  cases findRow st norm <;> rfl

/-- States that a whole migration preserves the store invariant whenever
its timestamp is current. -/
theorem migrate_inv {pairs : List (String × String)} {st : Store} {src : String} {t : Int}
    (hinv : StoreInv st) (hclock : ∀ r ∈ st, r.last_seen ≤ t) :
    StoreInv (migrate_pairs st pairs src t).2.2 := by
  induction pairs generalizing st with
  | nil => exact hinv
  | cons p rest ih =>
    obtain ⟨norm, full⟩ := p
    rw [migrate_pairs_cons_store]
    exact ih (upsert_inv hinv hclock) (upsert_clock hclock)

/-- States that every single committed operation preserves the invariant. -/
theorem step_inv {st st' : Store} (h : Step st st') (hinv : StoreInv st) : StoreInv st' := by
  cases h with
  | upsert k raw src t hclock => exact upsert_inv hinv hclock
  | expire age now =>
    rcases expire_snd_cases st age now with hc | ⟨q, hc⟩ <;> rw [hc]
    · exact hinv
    · exact filter_inv q hinv
  | prune m =>
    rcases prune_snd_cases st m with hc | ⟨q, hc⟩ <;> rw [hc]
    · exact hinv
    · exact filter_inv q hinv
  | migrate pairs src t hclock => exact migrate_inv hinv hclock

/-- States that every reachable store state satisfies the invariant. -/
theorem reach_inv {st : Store} (h : Reach st) : StoreInv st := by
  induction h with
  | empty => exact ⟨List.nodup_nil, by simp⟩
  | step hr hs ih => exact step_inv hs ih

/-- States that the upsert never loses a stored key and never lowers its
`fail_count`. -/
theorem upsert_preserves_present {st : Store} {k' : String} {r : Row}
    (h : findRow st k' = some r) (k raw : String) (src : Option String) (t : Int) :
    ∃ r', findRow (upsert_notworker st k raw src t) k' = some r' ∧
      r.fail_count ≤ r'.fail_count := by
  by_cases hk : k = ""
  · exact ⟨r, by simpa [upsert_notworker, hk] using h, le_refl _⟩
  · by_cases hkk : k' = k
    · subst hkk
      refine ⟨updatedRow raw src t r, findRow_upsert_self raw src t hk h, ?_⟩
      simp [updatedRow]
    · refine ⟨r, ?_, le_refl _⟩
      rw [findRow_upsert_other raw src t hkk]
      exact h

/-- States that a migration never loses a stored key and never lowers its
`fail_count`. -/
theorem migrate_preserves_present {pairs : List (String × String)} {st : Store}
    {src : String} {t : Int} {k' : String} {r : Row} (h : findRow st k' = some r) :
    ∃ r', findRow (migrate_pairs st pairs src t).2.2 k' = some r' ∧
      r.fail_count ≤ r'.fail_count := by
  induction pairs generalizing st r with
  | nil => exact ⟨r, h, le_refl _⟩
  | cons p rest ih =>
    obtain ⟨norm, full⟩ := p
    rw [migrate_pairs_cons_store]
    obtain ⟨r1, h1, hle1⟩ := upsert_preserves_present h norm full (some src) t
    obtain ⟨r2, h2, hle2⟩ := ih h1
    exact ⟨r2, h2, le_trans hle1 hle2⟩

/-- States that deleting rows (a filter pass) leaves any surviving looked
up row literally unchanged, given unique keys. -/
theorem filter_fc_mono {st : Store} {q : Row → Bool}
    (hnd : (st.map (fun r => r.key)).Nodup) {k : String} {r r' : Row}
    (hr : findRow st k = some r) (hr' : findRow (st.filter q) k = some r') :
    r.fail_count ≤ r'.fail_count := by
  have hm' := findRow_mem hr'
  have hm'' : r' ∈ st := (List.mem_filter.mp hm'.1).1
  have hm0 := findRow_mem hr
  have heq : r = r' :=
    List.inj_on_of_nodup_map hnd hm0.1 hm'' (by rw [hm0.2, hm'.2])
  rw [heq]

/-- States that one upsert never lowers the `fail_count` of a stored key. -/
theorem upsert_fc_mono {st : Store} {k raw : String} {src : Option String} {t : Int}
    {k' : String} {r r' : Row} (hr : findRow st k' = some r)
    (hr' : findRow (upsert_notworker st k raw src t) k' = some r') :
    r.fail_count ≤ r'.fail_count := by
  obtain ⟨r'', h'', hle⟩ := upsert_preserves_present hr k raw src t
  rw [h''] at hr'
  cases hr'
  exact hle

/-- States that every committed operation keeps `fail_count` monotonically
non-decreasing on every key present before and after it. -/
theorem step_fc_mono {st st' : Store} (h : Step st st')
    (hnd : (st.map (fun r => r.key)).Nodup) {k : String} {r r' : Row}
    (hr : findRow st k = some r) (hr' : findRow st' k = some r') :
    r.fail_count ≤ r'.fail_count := by
  cases h with
  | upsert k0 raw src t hclock => exact upsert_fc_mono hr hr'
  | expire age now =>
    rcases expire_snd_cases st age now with hc | ⟨q, hc⟩
    · rw [hc, hr] at hr'
      cases hr'
      exact le_refl _
    · rw [hc] at hr'
      exact filter_fc_mono hnd hr hr'
  | prune m =>
    rcases prune_snd_cases st m with hc | ⟨q, hc⟩
    · rw [hc, hr] at hr'
      cases hr'
      exact le_refl _
    · rw [hc] at hr'
      exact filter_fc_mono hnd hr hr'
  | migrate pairs src t hclock =>
    obtain ⟨r2, h2, hle⟩ := migrate_preserves_present hr
    rw [h2] at hr'
    cases hr'
    exact hle

/-- C5: every store state reachable from the empty table through the
mutating operations (upsert, expire, prune, migrate — each upsert stamped
with the current time, which is at or above every recorded `last_seen`)
satisfies the invariant: keys are unique, `first_seen ≤ last_seen` for
every entry, `fail_count ≥ 1` for every entry; and every further
operation keeps each present key's `fail_count` monotonically
non-decreasing. -/
theorem store_invariant_reachable (st : Store) (h : Reach st) :
    StoreInv st ∧
    ∀ st', Step st st' → ∀ (k : String) (r r' : Row), findRow st k = some r →
      findRow st' k = some r' → r.fail_count ≤ r'.fail_count := by
  have hinv := reach_inv h
  exact ⟨hinv, fun st' hs k r r' hr hr' => step_fc_mono hs hinv.1 hr hr'⟩

/-- Witness for C5: the invariant holds in the concrete state reached by
one upsert into the empty store, with the reachability hypothesis built
from the `Reach`/`Step` constructors. -/
theorem store_invariant_reachable_witness :
    StoreInv (upsert_notworker [] "k" "r" none 7) :=
  (store_invariant_reachable _
    (Reach.step Reach.empty (Step.upsert [] "k" "r" none 7 (by simp)))).1

/-- Splits a row count into the part matching a predicate and the rest. -/
theorem countP_not_add (p : Row → Bool) (l : List Row) :
    l.countP (fun a => !p a) + l.countP p = l.length := by
  induction l with
  | nil => simp
  | cons a l ih =>
    by_cases h : p a <;> simp [List.countP_cons, h] <;> omega

/-- States what selecting the `n` oldest rows (any sorted-by-`last_seen`
permutation's prefix of length `n`) and deleting them by id does, for a
table with unique ids: exactly `n` rows are deleted, the remaining count
is the total minus `n`, and every deleted row's `last_seen` is at most
every kept row's. -/
theorem select_oldest (st S : Store) (n : Nat) (doomed : List Nat)
    (hid : (st.map (fun r => r.id)).Nodup) (hperm : S.Perm st)
    (hpair : List.Pairwise byLastSeen S) (hn : n ≤ st.length)
    (hdoomed : doomed = (S.take n).map (fun r => r.id)) :
    st.countP (fun r => decide (r.id ∈ doomed)) = n ∧
    (st.filter (fun r => decide (r.id ∉ doomed))).length = st.length - n ∧
    (∀ d ∈ st, d ∉ st.filter (fun r => decide (r.id ∉ doomed)) →
      ∀ k ∈ st.filter (fun r => decide (r.id ∉ doomed)), d.last_seen ≤ k.last_seen) := by
  have hidS : (S.map (fun r => r.id)).Nodup := ((hperm.map _).nodup_iff).mpr hid
  have hSlen : S.length = st.length := hperm.length_eq
  have htd : S.take n ++ S.drop n = S := List.take_append_drop n S
  have htlen : (S.take n).length = n := by
    rw [List.length_take]
    omega
  have hsplitS : S.map (fun r => r.id) =
      (S.take n).map (fun r => r.id) ++ (S.drop n).map (fun r => r.id) := by
    rw [← List.map_append, htd]
  have hdisj : ∀ a ∈ (S.drop n).map (fun r => r.id),
      a ∉ (S.take n).map (fun r => r.id) := by
    rw [hsplitS, List.nodup_append] at hidS
    intro a ha hb
    exact hidS.2.2 hb ha
  have hcount : st.countP (fun r => decide (r.id ∈ doomed)) = n := by
    rw [← hperm.countP_eq]
    have hS : S.countP (fun r => decide (r.id ∈ doomed)) =
        (S.take n).countP (fun r => decide (r.id ∈ doomed)) +
        (S.drop n).countP (fun r => decide (r.id ∈ doomed)) := by
      conv_lhs => rw [← htd]
      rw [List.countP_append]
    have h1 : (S.take n).countP (fun r => decide (r.id ∈ doomed)) = (S.take n).length := by
      rw [List.countP_eq_length]
      intro a ha
      simp only [decide_eq_true_eq, hdoomed]
      exact List.mem_map_of_mem _ ha
    have h2 : (S.drop n).countP (fun r => decide (r.id ∈ doomed)) = 0 := by
      rw [List.countP_eq_zero]
      intro a ha
      simp only [decide_eq_true_eq, hdoomed]
      exact fun hmem => hdisj a.id (List.mem_map_of_mem _ ha) hmem
    rw [hS, h1, h2, htlen]
    omega
  refine ⟨hcount, ?_, ?_⟩
  · have hlen : (st.filter (fun r => decide (r.id ∉ doomed))).length =
        st.countP (fun r => decide (r.id ∉ doomed)) :=
      (List.countP_eq_length_filter _ _).symm
    have hcongr : st.countP (fun r => decide (r.id ∉ doomed)) =
        st.countP (fun r => !decide (r.id ∈ doomed)) :=
      List.countP_congr (fun x _ => by simp)
    have hadd := countP_not_add (fun r => decide (r.id ∈ doomed)) st
    omega
  · intro d hd hdnot k hk
    have hdid : d.id ∈ doomed := by
      by_contra hcon
      exact hdnot (List.mem_filter.mpr ⟨hd, by simpa using hcon⟩)
    have hkmem := List.mem_filter.mp hk
    have hkid : k.id ∉ doomed := by simpa using hkmem.2
    -- d is one of the first n rows of S
    have hdS : d ∈ S.take n := by
      rw [hdoomed] at hdid
      rcases List.mem_map.mp hdid with ⟨d', hd', hdeq⟩
      have hd'st : d' ∈ st := hperm.mem_iff.mp (List.mem_of_mem_take hd')
      have : d' = d := List.inj_on_of_nodup_map hid hd'st hd hdeq
      rw [← this]
      exact hd'
    -- k is one of the rows of S after position n
    have hkS : k ∈ S.drop n := by
      have hkmemS : k ∈ S := hperm.mem_iff.mpr hkmem.1
      rw [← htd] at hkmemS
      rcases List.mem_append.mp hkmemS with hmem | hmem
      · exact absurd (hdoomed ▸ List.mem_map_of_mem _ hmem) hkid
      · exact hmem
    have hrel := List.pairwise_append.mp (htd ▸ hpair)
    exact hrel.2.2 d hdS k hkS

/-- C6: with `0 < max_rows < count`, `prune_to_max` deletes exactly
`count - max_rows` rows — returning that number — so that exactly
`max_rows` remain; the survivors are original rows in their original
order, and every deleted row is at least as old (by `last_seen`) as every
kept row, i.e. exactly the oldest rows are removed. When the count is at
most `max_rows`, or `max_rows` is non-positive, the call is a no-op
returning 0. Concretely, four rows with `last_seen` 1 < 2 < 3 < 4 pruned
to capacity 2 lose exactly the two oldest. -/
theorem prune_oldest (st : Store) (m : Int) (hid : (st.map (fun r => r.id)).Nodup) :
    (m ≤ 0 → prune_to_max st m = (0, st)) ∧
    ((st.length : Int) ≤ m → prune_to_max st m = (0, st)) ∧
    (0 < m → m < (st.length : Int) →
      ((prune_to_max st m).1 : Int) = (st.length : Int) - m ∧
      ((prune_to_max st m).2.length : Int) = m ∧
      (prune_to_max st m).2.Sublist st ∧
      (∀ d ∈ st, d ∉ (prune_to_max st m).2 → ∀ k ∈ (prune_to_max st m).2,
        d.last_seen ≤ k.last_seen)) ∧
    prune_to_max [⟨1, "c", "rc", 3, 3, 1, none⟩, ⟨2, "a", "ra", 1, 1, 1, none⟩,
        ⟨3, "d", "rd", 4, 4, 1, none⟩, ⟨4, "b", "rb", 2, 2, 1, none⟩] 2 =
      (2, [⟨1, "c", "rc", 3, 3, 1, none⟩, ⟨3, "d", "rd", 4, 4, 1, none⟩]) := by
  refine ⟨fun h => ?_, fun h => ?_, fun h0 hlt => ?_, by decide⟩
  · unfold prune_to_max
    rw [if_pos h]
  · unfold prune_to_max
    by_cases hm : m ≤ 0
    · rw [if_pos hm]
    · rw [if_neg hm, if_pos h]
  · have hne : ¬ m ≤ 0 := by omega
    have hne2 : ¬ (st.length : Int) ≤ m := by omega
    have hprune : prune_to_max st m =
        (st.countP (fun r => decide (r.id ∈
           ((List.insertionSort byLastSeen st).take ((st.length : Int) - m).toNat).map
             (fun r => r.id))),
         st.filter (fun r => decide (r.id ∉
           ((List.insertionSort byLastSeen st).take ((st.length : Int) - m).toNat).map
             (fun r => r.id)))) := by
      unfold prune_to_max
      rw [if_neg hne, if_neg hne2]
    have hn : ((st.length : Int) - m).toNat ≤ st.length := by omega
    have hsel := select_oldest st (List.insertionSort byLastSeen st)
      ((st.length : Int) - m).toNat
      (((List.insertionSort byLastSeen st).take ((st.length : Int) - m).toNat).map
        (fun r => r.id))
      hid (List.perm_insertionSort byLastSeen st)
      (List.sorted_insertionSort byLastSeen st) hn rfl
    rw [hprune]
    refine ⟨?_, ?_, List.filter_sublist st, hsel.2.2⟩
    · dsimp only
      rw [hsel.1]
      omega
    · dsimp only
      rw [hsel.2.1]
      omega

/-- Witness for C6: applies the theorem at concrete stores, discharging
the unique-id hypothesis and both the no-op and the pruning cases. -/
theorem prune_oldest_witness :
    prune_to_max [⟨1, "x", "rx", 5, 5, 1, none⟩] 5 =
      (0, [⟨1, "x", "rx", 5, 5, 1, none⟩]) ∧
    ((prune_to_max [⟨1, "c", "rc", 3, 3, 1, none⟩, ⟨2, "a", "ra", 1, 1, 1, none⟩,
        ⟨3, "d", "rd", 4, 4, 1, none⟩, ⟨4, "b", "rb", 2, 2, 1, none⟩] 2).1 : Int) = 2 :=
  ⟨(prune_oldest [⟨1, "x", "rx", 5, 5, 1, none⟩] 5 (by decide)).2.1 (by decide),
   by
    have h := ((prune_oldest [⟨1, "c", "rc", 3, 3, 1, none⟩, ⟨2, "a", "ra", 1, 1, 1, none⟩,
        ⟨3, "d", "rd", 4, 4, 1, none⟩, ⟨4, "b", "rb", 2, 2, 1, none⟩] 2 (by decide)).2.2.1
      (by decide) (by decide)).1
    simpa using h⟩

/-- Evaluates one migration step whose key pre-exists. -/
theorem migrate_pairs_cons_present (st : Store) {norm : String} (full : String)
    (rest : List (String × String)) (src : String) (t : Int) {r0 : Row}
    (hfind : findRow st norm = some r0) :
    migrate_pairs st ((norm, full) :: rest) src t =
      ((migrate_pairs (upsert_notworker st norm full (some src) t) rest src t).1,
       (migrate_pairs (upsert_notworker st norm full (some src) t) rest src t).2.1 + 1,
       (migrate_pairs (upsert_notworker st norm full (some src) t) rest src t).2.2) := by
  simp only [migrate_pairs, hfind]

/-- Evaluates one migration step whose key is new. -/
theorem migrate_pairs_cons_absent (st : Store) {norm : String} (full : String)
    (rest : List (String × String)) (src : String) (t : Int)
    (hfind : findRow st norm = none) :
    migrate_pairs st ((norm, full) :: rest) src t =
      ((migrate_pairs (upsert_notworker st norm full (some src) t) rest src t).1 + 1,
       (migrate_pairs (upsert_notworker st norm full (some src) t) rest src t).2.1,
       (migrate_pairs (upsert_notworker st norm full (some src) t) rest src t).2.2) := by
  simp only [migrate_pairs, hfind]

/-- Evaluates a lookup of a freshly appended row. -/
theorem findRow_append_single (st : Store) (nr : Row) (h : findRow st nr.key = none) :
    findRow (st ++ [nr]) nr.key = some nr := by
  simp only [findRow] at h ⊢
  rw [List.find?_append, h]
  simp [List.find?]

/-- Characterises a whole migration run over a parsed mapping with
distinct non-empty normalized keys, from any starting store: the inserted
and updated counts tally the keys absent and present in the starting
store, the row count grows by the inserted count, keys outside the
mapping are untouched, every migrated key ends with the mapping's line as
`raw`, the migration source, the run's timestamp as `last_seen`, a
`fail_count` one above its previous value (1 if new) and its previous
`first_seen` (the run's timestamp if new), and key uniqueness is
preserved. -/
theorem migrate_pairs_spec (pairs : List (String × String)) (st : Store) (src : String)
    (t : Int) (hnd : (pairs.map Prod.fst).Nodup) (hne : ∀ p ∈ pairs, p.1 ≠ "") :
    (migrate_pairs st pairs src t).1 =
      pairs.countP (fun p => decide (findRow st p.1 = none)) ∧
    (migrate_pairs st pairs src t).2.1 =
      pairs.countP (fun p => decide (¬ findRow st p.1 = none)) ∧
    (migrate_pairs st pairs src t).2.2.length =
      st.length + (migrate_pairs st pairs src t).1 ∧
    (∀ k, k ∉ pairs.map Prod.fst →
      findRow (migrate_pairs st pairs src t).2.2 k = findRow st k) ∧
    (∀ p ∈ pairs, ∃ r : Row,
      findRow (migrate_pairs st pairs src t).2.2 p.1 = some r ∧
      r.key = p.1 ∧ r.raw = p.2 ∧ r.source = some src ∧ r.last_seen = t ∧
      r.fail_count =
        (match findRow st p.1 with | some r0 => r0.fail_count + 1 | none => 1) ∧
      r.first_seen =
        (match findRow st p.1 with | some r0 => r0.first_seen | none => t)) ∧
    ((st.map (fun r => r.key)).Nodup →
      ((migrate_pairs st pairs src t).2.2.map (fun r => r.key)).Nodup) := by
  induction pairs generalizing st with
  | nil =>
    simp [migrate_pairs]
  | cons p rest ih =>
    obtain ⟨norm, full⟩ := p
    have hnorm : norm ≠ "" := hne (norm, full) (List.mem_cons_self _ _)
    simp only [List.map_cons, List.nodup_cons] at hnd
    have hnotin : norm ∉ rest.map Prod.fst := hnd.1
    have hndrest : (rest.map Prod.fst).Nodup := hnd.2
    have hnerest : ∀ q ∈ rest, q.1 ≠ "" :=
      fun q hq => hne q (List.mem_cons_of_mem _ hq)
    have hqne : ∀ q ∈ rest, q.1 ≠ norm := by
      intro q hq heq
      exact hnotin (heq ▸ List.mem_map_of_mem Prod.fst hq)
    have hsame : ∀ q ∈ rest,
        findRow (upsert_notworker st norm full (some src) t) q.1 = findRow st q.1 :=
      fun q hq => findRow_upsert_other full (some src) t (hqne q hq)
    have hcnt1 :
        rest.countP (fun q =>
          decide (findRow (upsert_notworker st norm full (some src) t) q.1 = none)) =
        rest.countP (fun q => decide (findRow st q.1 = none)) :=
      List.countP_congr (fun q hq => by rw [hsame q hq])
    have hcnt2 :
        rest.countP (fun q =>
          decide (¬ findRow (upsert_notworker st norm full (some src) t) q.1 = none)) =
        rest.countP (fun q => decide (¬ findRow st q.1 = none)) :=
      List.countP_congr (fun q hq => by rw [hsame q hq])
    have IH := ih (upsert_notworker st norm full (some src) t) hndrest hnerest
    cases hfind : findRow st norm with
    | some r0 =>
      rw [migrate_pairs_cons_present st full rest src t hfind]
      dsimp only
      refine ⟨?_, ?_, ?_, ?_, ?_, ?_⟩
      · rw [IH.1, hcnt1]
        simp [List.countP_cons, hfind]
      · rw [IH.2.1, hcnt2]
        simp [List.countP_cons, hfind]
      · rw [IH.2.2.1, upsert_present_length full (some src) t hnorm hfind]
      · intro k hk
        simp only [List.map_cons, List.mem_cons, not_or] at hk
        rw [IH.2.2.2.1 k hk.2, findRow_upsert_other full (some src) t hk.1]
      · intro q hq
        rcases List.mem_cons.mp hq with heq | hq'
        · subst heq
          refine ⟨updatedRow full (some src) t r0, ?_, ?_, ?_, ?_, ?_, ?_, ?_⟩
          · rw [IH.2.2.2.1 norm hnotin]
            exact findRow_upsert_self full (some src) t hnorm hfind
          · simp [updatedRow, (findRow_mem hfind).2]
          · simp [updatedRow]
          · simp [updatedRow]
          · simp [updatedRow]
          · rw [hfind]
            simp [updatedRow]
          · rw [hfind]
            simp [updatedRow]
        · obtain ⟨r, ha, hb, hc, hd, he, hf, hg⟩ := IH.2.2.2.2.1 q hq'
          rw [hsame q hq'] at hf hg
          exact ⟨r, ha, hb, hc, hd, he, hf, hg⟩
      · intro hkeys
        exact IH.2.2.2.2.2 (upsert_keys_nodup hkeys)
    | none =>
      rw [migrate_pairs_cons_absent st full rest src t hfind]
      dsimp only
      have habs := upsert_absent_eq full (some src) t hnorm hfind
      have hlen' : (upsert_notworker st norm full (some src) t).length = st.length + 1 := by
        rw [habs]
        simp
      have hnewfind : findRow (upsert_notworker st norm full (some src) t) norm =
          some { id := nextId st, key := norm, raw := full, first_seen := t,
                 last_seen := t, fail_count := 1, source := some src } := by
        rw [habs]
        exact findRow_append_single st _ hfind
      refine ⟨?_, ?_, ?_, ?_, ?_, ?_⟩
      · rw [IH.1, hcnt1]
        simp [List.countP_cons, hfind]
      · rw [IH.2.1, hcnt2]
        simp [List.countP_cons, hfind]
      · rw [IH.2.2.1, hlen']
        omega
      · intro k hk
        simp only [List.map_cons, List.mem_cons, not_or] at hk
        rw [IH.2.2.2.1 k hk.2, findRow_upsert_other full (some src) t hk.1]
      · intro q hq
        rcases List.mem_cons.mp hq with heq | hq'
        · subst heq
          refine ⟨{ id := nextId st, key := norm, raw := full, first_seen := t,
                    last_seen := t, fail_count := 1, source := some src },
                  ?_, rfl, rfl, rfl, rfl, ?_, ?_⟩
          · rw [IH.2.2.2.1 norm hnotin]
            exact hnewfind
          · rw [hfind]
          · rw [hfind]
        · obtain ⟨r, ha, hb, hc, hd, he, hf, hg⟩ := IH.2.2.2.2.1 q hq'
          rw [hsame q hq'] at hf hg
          exact ⟨r, ha, hb, hc, hd, he, hf, hg⟩
      · intro hkeys
        exact IH.2.2.2.2.2 (upsert_keys_nodup hkeys)

/-- C9: migrating a parsed flat mapping with k distinct (non-empty)
normalized keys into the empty store returns `(inserted, updated) =
(k, 0)`, storing each key with `source = "flat"` and `fail_count = 1`;
re-running the same migration returns `(0, k)`, creates no duplicate keys
and leaves the same k rows with each `fail_count` incremented to 2 (and
the same `raw` and source); exporting afterwards returns the count k and
writes one line per stored entry — its `raw` value (newline-terminated) —
with the rows in key-sorted order, reading but not modifying the store. -/
theorem migration_round_trip (pairs : List (String × String)) (t1 t2 : Int)
    (i1 u1 i2 u2 : Nat) (st1 st2 : Store)
    (hnd : (pairs.map Prod.fst).Nodup) (hne : ∀ p ∈ pairs, p.1 ≠ "")
    (h1 : migrate_pairs [] pairs "flat" t1 = (i1, u1, st1))
    (h2 : migrate_pairs st1 pairs "flat" t2 = (i2, u2, st2)) :
    i1 = pairs.length ∧ u1 = 0 ∧
    (∀ p ∈ pairs, ∃ r : Row, findRow st1 p.1 = some r ∧ r.raw = p.2 ∧
      r.source = some "flat" ∧ r.fail_count = 1) ∧
    (st1.map (fun r => r.key)).Nodup ∧
    i2 = 0 ∧ u2 = pairs.length ∧
    (st2.map (fun r => r.key)).Nodup ∧
    st1.length = pairs.length ∧ st2.length = pairs.length ∧
    (∀ p ∈ pairs, ∃ r : Row, findRow st2 p.1 = some r ∧ r.raw = p.2 ∧
      r.source = some "flat" ∧ r.fail_count = 2) ∧
    (export_to_flat st2).1 = pairs.length ∧
    (∃ rows : Store, rows.Perm st2 ∧ List.Sorted byKey rows ∧
      (export_to_flat st2).2 = rows.map lineOf) := by
  have S1 := migrate_pairs_spec pairs [] "flat" t1 hnd hne
  rw [h1] at S1
  have hfields1 : ∀ p ∈ pairs, ∃ r : Row, findRow st1 p.1 = some r ∧ r.raw = p.2 ∧
      r.source = some "flat" ∧ r.fail_count = 1 := by
    intro p hp
    obtain ⟨r, ha, hb, hc, hd, he, hf, hg⟩ := S1.2.2.2.2.1 p hp
    refine ⟨r, ha, hc, hd, ?_⟩
    simpa [findRow] using hf
  have hi1 : i1 = pairs.length := by
    have := S1.1
    rw [List.countP_eq_length.mpr (fun p _ => by simp [findRow])] at this
    exact this
  have hu1 : u1 = 0 := by
    have := S1.2.1
    rw [List.countP_eq_zero.mpr (fun p _ => by simp [findRow])] at this
    exact this
  have hnd1 : (st1.map (fun r => r.key)).Nodup := S1.2.2.2.2.2 (by simp)
  have hlen1 : st1.length = pairs.length := by
    have := S1.2.2.1
    simpa [hi1] using this
  have S2 := migrate_pairs_spec pairs st1 "flat" t2 hnd hne
  rw [h2] at S2
  have hi2 : i2 = 0 := by
    have := S2.1
    rw [List.countP_eq_zero.mpr ?_] at this
    · exact this
    · intro p hp
      obtain ⟨r, ha, _, _, _⟩ := hfields1 p hp
      simp [ha]
  have hu2 : u2 = pairs.length := by
    have := S2.2.1
    rw [List.countP_eq_length.mpr ?_] at this
    · exact this
    · intro p hp
      obtain ⟨r, ha, _, _, _⟩ := hfields1 p hp
      simp [ha]
  have hnd2 : (st2.map (fun r => r.key)).Nodup := S2.2.2.2.2.2 hnd1
  have hlen2 : st2.length = pairs.length := by
    have := S2.2.2.1
    rw [hi2] at this
    simpa [hlen1] using this
  have hfields2 : ∀ p ∈ pairs, ∃ r : Row, findRow st2 p.1 = some r ∧ r.raw = p.2 ∧
      r.source = some "flat" ∧ r.fail_count = 2 := by
    intro p hp
    obtain ⟨r, ha, hb, hc, hd, he, hf, hg⟩ := S2.2.2.2.2.1 p hp
    obtain ⟨r1, ha1, hb1, hc1, hd1⟩ := hfields1 p hp
    refine ⟨r, ha, hc, hd, ?_⟩
    have hstep : r.fail_count = r1.fail_count + 1 := by
      rw [ha1] at hf
      exact hf
    rw [hstep, hd1]
    norm_num
  refine ⟨hi1, hu1, hfields1, hnd1, hi2, hu2, hnd2, hlen1, hlen2, hfields2, ?_, ?_⟩
  · have : (export_to_flat st2).1 = st2.length :=
      (List.perm_insertionSort byKey st2).length_eq
    rw [this, hlen2]
  · exact ⟨List.insertionSort byKey st2, List.perm_insertionSort byKey st2,
      List.sorted_insertionSort byKey st2, rfl⟩

/-- Witness for C9: the round trip on a concrete two-line flat mapping,
with every hypothesis discharged by evaluation; the migrated key "a" ends
with `fail_count = 2` after the second run. -/
theorem migration_round_trip_witness :
    ∃ r : Row,
      findRow [⟨1, "a", "ra", 1, 2, 2, some "flat"⟩,
               ⟨2, "b", "rb", 1, 2, 2, some "flat"⟩] "a" = some r ∧
      r.raw = "ra" ∧ r.source = some "flat" ∧ r.fail_count = 2 := by
  have h := migration_round_trip [("a", "ra"), ("b", "rb")] 1 2 2 0 0 2
    [⟨1, "a", "ra", 1, 1, 1, some "flat"⟩, ⟨2, "b", "rb", 1, 1, 1, some "flat"⟩]
    [⟨1, "a", "ra", 1, 2, 2, some "flat"⟩, ⟨2, "b", "rb", 1, 2, 2, some "flat"⟩]
    (by decide) (by decide) (by decide) (by decide)
  exact h.2.2.2.2.2.2.2.2.2.1 ("a", "ra") (by decide)
